import Mathlib

/-!
Verification development for `src/assignment_1/graph_processing.py` of the
power-system-simulation repository.

The Python module defines a `GraphProcessor` class whose `__init__`
validates a graph description (vertex ids, edge ids, endpoint pairs,
enabled flags, source vertex) and raises one of several exception classes
on invalid input.  The two analysis methods `find_downstream_vertices` and
`find_alternative_edges` have empty bodies (`pass`), and the module's top
level invokes `GraphProcessor` with names that are never defined.

Everything below is a shallow embedding of that file: Python lists become
Lean lists, Python `dict`s become insertion-ordered association lists,
Python exceptions become an error type threaded through `Except`, and the
unbounded recursion of the two depth-first traversals becomes structural
recursion on a fuel parameter (the constructor passes a fuel that is
proved adequate, i.e. the `OutOfFuel` marker is unreachable).
-/

namespace GraphProcessing

/-- Every run-time failure the module can produce: the seven exception
classes declared at the top of `graph_processing.py`, plus the builtin
Python exceptions that its code can raise (`KeyError` from a missing dict
key, `IndexError` from list indexing, `NameError` from an undefined
module-level name), plus the fuel marker of the embedding. -/
inductive PyError : Type
  | IDNotFoundError
  | InputLengthDoesNotMatchError
  | IDNotUniqueError
  | EdgePairNotUniqueError
  | GraphNotFullyConnectedError
  | GraphCycleError
  | EdgeAlreadyDisabledError
  | KeyError
  | IndexError
  | NameError
  | OutOfFuel
deriving DecidableEq

/-- Insertion-ordered association list with `Int` keys: the embedding of a
Python `dict` keyed by vertex ids. -/
abbrev Alist (β : Type) := List (Int × β)

/-- Lookup of `d[k]` as an `Option` (first matching key, as in a dict where
keys are unique). -/
def alistGet {β : Type} : Alist β → Int → Option β
  | [], _ => none
  | (k, v) :: l, x => if x = k then some v else alistGet l x

/-- Assignment `d[k] = v`: update the existing entry in place, otherwise
append the new key at the end — exactly Python's dict insertion order. -/
def alistSet {β : Type} : Alist β → Int → β → Alist β
  | [], x, v => [(x, v)]
  | (k, w) :: l, x, v => if x = k then (x, v) :: l else (k, w) :: alistSet l x v

/-- Keys of a dict in insertion order (`d.keys()`). -/
def alistKeys {β : Type} (l : Alist β) : List Int := l.map Prod.fst

/-- Python list indexing `l[i]` with an `int` index: a negative index is
taken from the end, anything still out of range is an `IndexError`
(returned here as `none`). -/
def pythonGet {α : Type} (l : List α) (i : Int) : Option α :=
  let j := if i < 0 then i + l.length else i
  if 0 ≤ j then l.get? j.toNat else none

/-- The comparison `a != parent` performed by `GraphProcessor.DFS`, where
`parent` is either a vertex id or the initial `float("Nan")` sentinel.
`NaN != x` is `True` in Python, so the `none` case is always `true`. -/
def parentNe : Option Int → Int → Bool
  | none, _ => true
  | some w, a => a ≠ w

/-- Embedding of `tuple(sorted(t))` for a 2-tuple. -/
def sortPair (t : Int × Int) : Int × Int :=
  if t.1 ≤ t.2 then t else (t.2, t.1)

/-- Stable insertion into a list sorted by first component; together with
`sortByFst` this reproduces Python's stable `sorted(..., key=lambda x: x[0])`. -/
def insertByFst (a : Int × Int) : List (Int × Int) → List (Int × Int)
  | [] => [a]
  | b :: l => if a.1 ≤ b.1 then a :: b :: l else b :: insertByFst a l

/-- Stable sort by first component. -/
def sortByFst (l : List (Int × Int)) : List (Int × Int) :=
  l.foldr insertByFst []

/-- Embedding of the module-level helper `sort_tuple_list`: sort each tuple
ascending, then sort the list of tuples by first component. -/
def sort_tuple_list (l : List (Int × Int)) : List (Int × Int) :=
  sortByFst (l.map sortPair)

/-- The guard `if u not in adjacency_list: adjacency_list[u] = []` of
`build_adjacency_list`. -/
def ensureKey (adj : Alist (List Int)) (k : Int) : Alist (List Int) :=
  match alistGet adj k with
  | some _ => adj
  | none => adj ++ [(k, [])]

/-- The statement `adjacency_list[k].append(v)` of `build_adjacency_list`
(the key is always present when it runs, so the `getD []` default is never
taken). -/
def appendNbr (adj : Alist (List Int)) (k v : Int) : Alist (List Int) :=
  alistSet adj k ((alistGet adj k).getD [] ++ [v])

/-- One step of `GraphProcessor.build_adjacency_list`'s loop body: make sure
both endpoints have an entry, then append each endpoint to the other's
neighbor list. -/
def addEdge (adj : Alist (List Int)) (uv : Int × Int) : Alist (List Int) :=
  appendNbr (appendNbr (ensureKey (ensureKey adj uv.1) uv.2) uv.1 uv.2)
    uv.2 uv.1

/-- The list comprehension
`[num for num, m in zip(edge_vertex_id_pairs, edge_enabled) if m]` of
`build_adjacency_list` (`zip` truncates to the shorter list, as in
Python). -/
def enabledPairs (edge_vertex_id_pairs : List (Int × Int))
    (edge_enabled : List Bool) : List (Int × Int) :=
  ((edge_vertex_id_pairs.zip edge_enabled).filter (fun p => p.2)).map Prod.fst

/-- Embedding of `GraphProcessor.build_adjacency_list`: fold the loop body
over the enabled pairs starting from the empty dict. -/
def build_adjacency_list (edge_vertex_id_pairs : List (Int × Int))
    (edge_enabled : List Bool) : Alist (List Int) :=
  (enabledPairs edge_vertex_id_pairs edge_enabled).foldl addEdge []

/-- The neighbor list `adjacency_list[x]` read off the adjacency dict, with
`[]` for a missing key (used only to state properties; the executable code
goes through `alistGet` and models the `KeyError`). -/
def adjList (adj : Alist (List Int)) (x : Int) : List Int :=
  (alistGet adj x).getD []

/-- A well-formedness property of an adjacency dict: every vertex listed in
some neighbor list has an entry of its own.  `build_adjacency_list` always
produces such a dict because it inserts both endpoints of every edge. -/
def Closed (adj : Alist (List Int)) : Prop :=
  ∀ x, ∀ a ∈ adjList adj x, a ∈ alistKeys adj

/-- Reachability from `s` through the (enabled-edge) adjacency dict. -/
def Reachable (adj : Alist (List Int)) (s u : Int) : Prop :=
  Relation.ReflTransGen (fun x y => y ∈ adjList adj x) s u

/-- The `for adjacent_vertex in adjacency_list[start_node]` loop of
`GraphProcessor.DFS`, abstracted over the recursive call `rec` (which the
caller instantiates with `DFS` at one fuel less).  State is the pair
(visited list, parent dict).  A neighbor that is already visited and is not
the current call's parent raises `GraphCycleError`; otherwise the recursive
call runs and its state is threaded into the rest of the loop. -/
def DFSfold (rec : List Int → Alist (Option Int) → Int →
      Except PyError (List Int × Alist (Option Int)))
    (parent : Option Int) :
    List Int × Alist (Option Int) → List Int →
      Except PyError (List Int × Alist (Option Int))
  | st, [] => .ok st
  | st, a :: rest =>
    if a ∈ st.1 ∧ parentNe parent a then .error .GraphCycleError
    else
      match rec st.1 st.2 a with
      | .error e => .error e
      | .ok st1 => DFSfold rec parent st1 rest

/-- Embedding of `GraphProcessor.DFS`.  The Python method mutates `visited`
and `parent_list` in place and recurses without bound; here the state is
threaded explicitly and a fuel argument makes the recursion structural.
An unvisited start vertex is appended to `visited` and assigned its parent,
and its adjacency entry is looked up (a missing entry is Python's
`KeyError`; since an exception discards the threaded state, the lookup is
matched first here) and the neighbor loop runs with the recursive call at
one fuel less. -/
def DFS (adj : Alist (List Int)) :
    Nat → List Int → Alist (Option Int) → Option Int → Int →
      Except PyError (List Int × Alist (Option Int))
  | 0, _, _, _, _ => .error .OutOfFuel
  | fuel + 1, visited, plist, parent, start =>
    if start ∈ visited then .ok (visited, plist)
    else
      match alistGet adj start with
      | none => .error .KeyError
      | some ns =>
        DFSfold (fun v p a => DFS adj fuel v p (some start) a) parent
          (visited ++ [start], alistSet plist start parent) ns

/-- Colors of the second (explicit-color) depth-first search inside
`__init__`: `'W'`, `'G'`, `'B'`. -/
inductive Color : Type
  | W
  | G
  | B
deriving DecidableEq

/-- The loop `for edge_id, (u, v) in zip(edge_ids, edge_vertex_id_pairs)`
of `__init__`'s second cycle check: it tests `edge_enabled[edge_id - 1]` —
indexing the flag list by the edge *id* minus one, with Python semantics
(negative indices wrap, out-of-range raises `IndexError`) — and appends
`v` to `graph[u]` for the edges whose test is true. -/
def buildDirectedLoop (edge_enabled : List Bool) :
    Alist (List Int) → List (Int × (Int × Int)) →
      Except PyError (Alist (List Int))
  | g, [] => .ok g
  | g, (eid, uv) :: rest =>
    match pythonGet edge_enabled (eid - 1) with
    | none => .error .IndexError
    | some b =>
      if b then
        match alistGet g uv.1 with
        | none => .error .KeyError
        | some l => buildDirectedLoop edge_enabled (alistSet g uv.1 (l ++ [uv.2])) rest
      else buildDirectedLoop edge_enabled g rest

/-- The directed graph `graph = {vertex: [] for vertex in vertex_ids}`
filled by `buildDirectedLoop`. -/
def buildDirectedGraph (vertex_ids edge_ids : List Int)
    (edge_vertex_id_pairs : List (Int × Int)) (edge_enabled : List Bool) :
    Except PyError (Alist (List Int)) :=
  buildDirectedLoop edge_enabled (vertex_ids.map (fun v => (v, ([] : List Int))))
    (edge_ids.zip edge_vertex_id_pairs)

/-- The `for v in graph[u]` loop of the nested `dfs` function inside
`__init__`, abstracted over the recursive call `rec`.  A white neighbor
gets its parent recorded and is explored (an inner `True` propagates
immediately, as `return True` does); a gray neighbor that is not the
current vertex's recorded parent reports a cycle; a black neighbor is
skipped.  After the loop the current vertex is colored black. -/
def dfs2loop (rec : Alist Color → Alist (Option Int) → Int →
      Except PyError (Bool × Alist Color × Alist (Option Int)))
    (u : Int) :
    Alist Color → Alist (Option Int) → List Int →
      Except PyError (Bool × Alist Color × Alist (Option Int))
  | cs, ps, [] => .ok (false, alistSet cs u Color.B, ps)
  | cs, ps, v :: rest =>
    match alistGet cs v with
    | none => .error .KeyError
    | some c =>
      if c = Color.W then
        match rec cs (alistSet ps v (some u)) v with
        | .error e => .error e
        | .ok (true, cs2, ps2) => .ok (true, cs2, ps2)
        | .ok (false, cs2, ps2) => dfs2loop rec u cs2 ps2 rest
      else if c = Color.G then
        match alistGet ps u with
        | none => .error .KeyError
        | some pu =>
          if parentNe pu v then .ok (true, cs, ps) else dfs2loop rec u cs ps rest
      else dfs2loop rec u cs ps rest

/-- Embedding of the nested `dfs(u, color, parent)` of `__init__`'s second
cycle check, with the same fuel discipline as `DFS`.  The vertex is colored
gray, its (directed) adjacency entry is looked up, and the neighbor loop
runs. -/
def dfs2 (graph : Alist (List Int)) :
    Nat → Alist Color → Alist (Option Int) → Int →
      Except PyError (Bool × Alist Color × Alist (Option Int))
  | 0, _, _, _ => .error .OutOfFuel
  | fuel + 1, cs, ps, u =>
    match alistGet graph u with
    | none => .error .KeyError
    | some vs =>
      dfs2loop (fun c p v => dfs2 graph fuel c p v) u
        (alistSet cs u Color.G) ps vs

/-- The `for u in graph.keys(): if color[u] == 'W': ...` driver loop of the
second cycle check: run `dfs2` from every still-white key, stopping at the
first `True` (the Python `break`). -/
def cycleTop (graph : Alist (List Int)) (fuel : Nat) :
    Alist Color → Alist (Option Int) → List Int → Except PyError Bool
  | _, _, [] => .ok false
  | cs, ps, u :: rest =>
    match alistGet cs u with
    | none => .error .KeyError
    | some c =>
      if c = Color.W then
        match dfs2 graph fuel cs ps u with
        | .error e => .error e
        | .ok (true, _, _) => .ok true
        | .ok (false, cs2, ps2) => cycleTop graph fuel cs2 ps2 rest
      else cycleTop graph fuel cs ps rest

/-- The whole second cycle check of `__init__` (the block building `graph`,
`color`, `parent` and running the color DFS over all keys), returning the
final `is_cyclic` flag.  The fuel `vertex_ids.length + 1` is proved
adequate below. -/
def cycleCheck (vertex_ids edge_ids : List Int)
    (edge_vertex_id_pairs : List (Int × Int)) (edge_enabled : List Bool) :
    Except PyError Bool :=
  match buildDirectedGraph vertex_ids edge_ids edge_vertex_id_pairs edge_enabled with
  | .error e => .error e
  | .ok graph =>
    cycleTop graph (vertex_ids.length + 1)
      ((alistKeys graph).map (fun v => (v, Color.W)))
      ((alistKeys graph).map (fun v => (v, (none : Option Int))))
      (alistKeys graph)

/-- Number of still-white entries of a color dict: the termination measure
of the second cycle check. -/
def countW (cs : Alist Color) : Nat :=
  cs.countP (fun kv => decide (kv.2 = Color.W))

/-- Number of adjacency keys not yet visited: the termination measure of
the rooted DFS. -/
def unvisitedKeys (adj : Alist (List Int)) (visited : List Int) : Nat :=
  (alistKeys adj).countP (fun k => decide (k ∉ visited))

/-- The `GraphProcessor` instance.  `__init__` assigns no attributes to
`self`, so a successfully constructed instance carries no data. -/
structure GraphProcessor : Type where
  mk ::
deriving DecidableEq

/-- Embedding of `GraphProcessor.find_downstream_vertices`: the body is
only `pass`, so every call returns Python's `None` (here `none`). -/
def GraphProcessor.find_downstream_vertices (_self : GraphProcessor)
    (_edge_id : Int) : Option (List Int) := none

/-- Embedding of `GraphProcessor.find_alternative_edges`: the body is only
`pass`, so every call returns Python's `None` (here `none`). -/
def GraphProcessor.find_alternative_edges (_self : GraphProcessor)
    (_disabled_edge_id : Int) : Option (List Int) := none

/-- Conjunction of the seven structural guard conditions of `__init__`
(uniqueness, lengths, referential integrity, pair uniqueness), used to
state properties of the traversal phase.  `construct` below tests exactly
these conditions in source order. -/
abbrev structuralOk (vertex_ids edge_ids : List Int)
    (edge_vertex_id_pairs : List (Int × Int)) (edge_enabled : List Bool)
    (source_vertex_id : Int) : Prop :=
  vertex_ids.Nodup ∧ edge_ids.Nodup ∧
  edge_vertex_id_pairs.length = edge_ids.length ∧
  (∀ p ∈ edge_vertex_id_pairs, p.1 ∈ vertex_ids ∧ p.2 ∈ vertex_ids) ∧
  edge_enabled.length = edge_ids.length ∧ source_vertex_id ∈ vertex_ids ∧
  (sort_tuple_list edge_vertex_id_pairs).Nodup

/-- The traversal phase of `__init__`: everything after the structural
checks — rooted DFS from the source, connectivity comparison, second cycle
check, and the final (unreachable) connectivity re-check kept from the
source. -/
def traversalPhase (vertex_ids edge_ids : List Int)
    (edge_vertex_id_pairs : List (Int × Int)) (edge_enabled : List Bool)
    (source_vertex_id : Int) : Except PyError GraphProcessor :=
  match DFS (build_adjacency_list edge_vertex_id_pairs edge_enabled)
      (vertex_ids.length + 1) [] [] none source_vertex_id with
  | .error e => .error e
  | .ok (vertex_visited, _) =>
    if vertex_visited.length ≠ vertex_ids.length then
      .error .GraphNotFullyConnectedError
    else
      match cycleCheck vertex_ids edge_ids edge_vertex_id_pairs edge_enabled with
      | .error e => .error e
      | .ok true => .error .GraphCycleError
      | .ok false =>
        if vertex_visited.length ≠ vertex_ids.length then
          .error .GraphNotFullyConnectedError
        else .ok ⟨⟩

/-- Embedding of `GraphProcessor.__init__` (named `construct` after the
spec's §4.1 contract).  The seven guard conditions appear in source order;
`len(set(l)) != len(l)` is rendered as `¬ l.Nodup`, the endpoint-validity
loop (which raises on the first bad pair, always with the same error) as a
single bounded quantifier, and `len(pairs) != len(set(sort_tuple_list(pairs)))`
as `¬ (sort_tuple_list pairs).Nodup` (sorting preserves length, so the set
of sorted pairs is smaller than the list exactly when it has duplicates).
Then the rooted DFS runs from the source over the enabled adjacency, the
visited count is compared against the vertex count, the second cycle check
runs, and the final (unreachable) re-check of connectivity is kept as in
the source.  Both traversals get fuel `vertex_ids.length + 1`, proved
adequate below. -/
def construct (vertex_ids edge_ids : List Int)
    (edge_vertex_id_pairs : List (Int × Int)) (edge_enabled : List Bool)
    (source_vertex_id : Int) : Except PyError GraphProcessor :=
  if ¬ vertex_ids.Nodup then .error .IDNotUniqueError
  else if ¬ edge_ids.Nodup then .error .IDNotUniqueError
  else if edge_vertex_id_pairs.length ≠ edge_ids.length then
    .error .InputLengthDoesNotMatchError
  else if ¬ ∀ p ∈ edge_vertex_id_pairs, p.1 ∈ vertex_ids ∧ p.2 ∈ vertex_ids then
    .error .IDNotFoundError
  else if edge_enabled.length ≠ edge_ids.length then
    .error .InputLengthDoesNotMatchError
  else if source_vertex_id ∉ vertex_ids then .error .IDNotFoundError
  else if ¬ (sort_tuple_list edge_vertex_id_pairs).Nodup then
    .error .EdgePairNotUniqueError
  else
    traversalPhase vertex_ids edge_ids edge_vertex_id_pairs edge_enabled
      source_vertex_id

/-- Names bound at module top level of `graph_processing.py` before the
`graph_processor = GraphProcessor(...)` statement on line 283 executes:
the seven exception classes and the `GraphProcessor` class.  (The helper
`sort_tuple_list` is defined only after line 283; the example bindings
`vertex_ids = [0, 1, 2, 3, 4, 5]` etc. exist only inside comments.) -/
def moduleDefinedNames : List String :=
  ["IDNotFoundError", "InputLengthDoesNotMatchError", "IDNotUniqueError",
   "EdgePairNotUniqueError", "GraphNotFullyConnectedError", "GraphCycleError",
   "EdgeAlreadyDisabledError", "GraphProcessor"]

/-- Names the statement `graph_processor = GraphProcessor(vertex_ids=...,
edge_ids=..., edge_vertex_id_pairs=..., edge_enabled=...,
source_vertex_id=...)` must resolve before the call can run. -/
def moduleCallNeededNames : List String :=
  ["vertex_ids", "edge_ids", "edge_vertex_id_pairs", "edge_enabled",
   "source_vertex_id"]

/-- Evaluating the module top level: the class and function definitions bind
`moduleDefinedNames`, then the `graph_processor = ...` statement evaluates
its arguments, which raises `NameError` as soon as one of them is not a
bound name. -/
def evalModuleTopLevel : Except PyError Unit :=
  if moduleCallNeededNames.all (fun n => moduleDefinedNames.contains n) then
    .ok ()
  else .error .NameError

/-! ### Association-list lemmas -/

theorem alistKeys_nil {β : Type} : alistKeys ([] : Alist β) = [] := rfl

theorem alistKeys_cons {β : Type} (kv : Int × β) (l : Alist β) :
    alistKeys (kv :: l) = kv.1 :: alistKeys l := rfl

theorem mem_alistKeys_cons {β : Type} {x k : Int} {w : β} {l : Alist β} :
    x ∈ alistKeys ((k, w) :: l) ↔ x = k ∨ x ∈ alistKeys l := by
  simp [alistKeys_cons]

theorem alistGet_isSome_iff_mem {β : Type} (l : Alist β) (x : Int) :
    (alistGet l x).isSome ↔ x ∈ alistKeys l := by
  induction l with
  | nil => simp [alistGet, alistKeys]
  | cons kv l ih =>
    obtain ⟨k, v⟩ := kv
    by_cases h : x = k
    · subst h; simp [alistGet, alistKeys]
    · simp [alistGet, alistKeys, h, ih]

theorem mem_of_alistGet_some {β : Type} {l : Alist β} {x : Int} {b : β}
    (h : alistGet l x = some b) : x ∈ alistKeys l := by
  have := (alistGet_isSome_iff_mem l x).mp (by simp [h])
  exact this

theorem alistGet_some_of_mem {β : Type} {l : Alist β} {x : Int}
    (h : x ∈ alistKeys l) : ∃ b, alistGet l x = some b := by
  have := (alistGet_isSome_iff_mem l x).mpr h
  exact Option.isSome_iff_exists.mp this

theorem alistGet_set_self {β : Type} (l : Alist β) (x : Int) (v : β) :
    alistGet (alistSet l x v) x = some v := by
  induction l with
  | nil => simp [alistSet, alistGet]
  | cons kv l ih =>
    obtain ⟨k, w⟩ := kv
    by_cases h : x = k
    · subst h; simp [alistSet, alistGet]
    · simp [alistSet, alistGet, h, ih]

theorem alistGet_set_ne {β : Type} (l : Alist β) {x y : Int} (v : β)
    (h : y ≠ x) : alistGet (alistSet l x v) y = alistGet l y := by
  induction l with
  | nil => simp [alistSet, alistGet, h]
  | cons kv l ih =>
    obtain ⟨k, w⟩ := kv
    by_cases hk : x = k
    · subst hk
      simp [alistSet, alistGet, h]
    · by_cases hy : y = k <;> simp [alistSet, alistGet, hk, hy, ih]

theorem alistKeys_set_of_mem {β : Type} {l : Alist β} {x : Int} (v : β)
    (h : x ∈ alistKeys l) : alistKeys (alistSet l x v) = alistKeys l := by
  induction l with
  | nil => simp [alistKeys] at h
  | cons kv l ih =>
    obtain ⟨k, w⟩ := kv
    by_cases hk : x = k
    · subst hk
      simp [alistSet, alistKeys_cons]
    · have hx : x ∈ alistKeys l :=
        (mem_alistKeys_cons.mp h).resolve_left hk
      simp only [alistSet, if_neg hk, alistKeys_cons, ih hx]

theorem alistKeys_set_of_not_mem {β : Type} {l : Alist β} {x : Int} (v : β)
    (h : x ∉ alistKeys l) : alistKeys (alistSet l x v) = alistKeys l ++ [x] := by
  induction l with
  | nil => simp [alistSet, alistKeys]
  | cons kv l ih =>
    obtain ⟨k, w⟩ := kv
    have hk : x ≠ k := fun hx => h (mem_alistKeys_cons.mpr (Or.inl hx))
    have hx : x ∉ alistKeys l := fun hc => h (mem_alistKeys_cons.mpr (Or.inr hc))
    simp only [alistSet, if_neg hk, alistKeys_cons, ih hx, List.cons_append]

theorem alistGet_append_of_some {β : Type} {l1 : Alist β} (l2 : Alist β)
    {x : Int} {v : β} (h : alistGet l1 x = some v) :
    alistGet (l1 ++ l2) x = some v := by
  induction l1 with
  | nil => simp [alistGet] at h
  | cons kv l ih =>
    obtain ⟨k, w⟩ := kv
    by_cases hk : x = k
    · subst hk; simp [alistGet] at h ⊢; exact h
    · simp [alistGet, hk] at h ⊢; exact ih h

theorem alistGet_append_of_none {β : Type} {l1 : Alist β} (l2 : Alist β)
    {x : Int} (h : alistGet l1 x = none) :
    alistGet (l1 ++ l2) x = alistGet l2 x := by
  induction l1 with
  | nil => simp [alistGet]
  | cons kv l ih =>
    obtain ⟨k, w⟩ := kv
    by_cases hk : x = k
    · subst hk; simp [alistGet] at h
    · simp [alistGet, hk] at h ⊢; exact ih h

/-! ### Counting lemmas for the two termination measures -/

theorem countW_set_le (cs : Alist Color) (u : Int) {c : Color}
    (hc : c ≠ Color.W) : countW (alistSet cs u c) ≤ countW cs := by
  induction cs with
  | nil => simp [alistSet, countW, List.countP_cons, hc]
  | cons kv l ih =>
    obtain ⟨k, w⟩ := kv
    by_cases hk : u = k
    · subst hk
      simp only [alistSet, if_pos rfl, countW, List.countP_cons]
      cases hw : decide (w = Color.W) <;> simp [hc, hw] <;> omega
    · simp only [alistSet, if_neg hk, countW, List.countP_cons]
      have ih2 : countW (alistSet l u c) ≤ countW l := ih
      simp only [countW] at ih2
      cases hw : decide (w = Color.W) <;> simp [hw] <;> omega

theorem countW_set_G {cs : Alist Color} {u : Int}
    (h : alistGet cs u = some Color.W) :
    countW (alistSet cs u Color.G) + 1 = countW cs := by
  induction cs with
  | nil => simp [alistGet] at h
  | cons kv l ih =>
    obtain ⟨k, w⟩ := kv
    by_cases hk : u = k
    · subst hk
      have hw : w = Color.W := by simpa [alistGet] using h
      subst hw
      simp [alistSet, countW, List.countP_cons]
    · have h2 : alistGet l u = some Color.W := by simpa [alistGet, hk] using h
      have ih2 := ih h2
      simp only [alistSet, if_neg hk, countW, List.countP_cons]
      simp only [countW] at ih2
      cases hw : decide (w = Color.W) <;> simp [hw] <;> omega

theorem unvisitedKeys_le_of_subset (adj : Alist (List Int))
    {v1 v2 : List Int} (h : v1 ⊆ v2) :
    unvisitedKeys adj v2 ≤ unvisitedKeys adj v1 := by
  apply List.countP_mono_left
  intro k _ hk
  simp only [decide_eq_true_eq] at hk ⊢
  exact fun hc => hk (h hc)

theorem countP_notin_append_single {keysl visited : List Int} {s : Int}
    (hnd : keysl.Nodup) (hk : s ∈ keysl) (hnv : s ∉ visited) :
    keysl.countP (fun k => decide (k ∉ visited ++ [s])) + 1 =
      keysl.countP (fun k => decide (k ∉ visited)) := by
  induction keysl with
  | nil => simp at hk
  | cons k rest ih =>
    have hnd2 : rest.Nodup := hnd.of_cons
    have hknotin : k ∉ rest := (List.nodup_cons.mp hnd).1
    rcases List.mem_cons.mp hk with hks | hks
    · have hcong : rest.countP (fun x => decide (x ∉ visited ++ [s])) =
          rest.countP (fun x => decide (x ∉ visited)) := by
        apply List.countP_congr
        intro x hx
        have hxs : x ≠ s := by
          intro hc
          exact hknotin (hks ▸ hc ▸ hx)
        simp [hxs]
      subst hks
      have hps : ¬ (decide (s ∉ visited ++ [s]) = true) := by simp
      have hqs : decide (s ∉ visited) = true := by simp [hnv]
      simp only [List.countP_cons]
      rw [hcong, if_neg hps, if_pos hqs]
    · have hks2 : k ≠ s := fun hc => hknotin (hc ▸ hks)
      have ih2 := ih hnd2 hks
      have heq : decide (k ∉ visited ++ [s]) = decide (k ∉ visited) := by
        simp [hks2]
      simp only [List.countP_cons]
      rw [heq]
      by_cases hkv : decide (k ∉ visited) = true
      · rw [if_pos hkv]
        omega
      · rw [if_neg hkv]
        omega

theorem unvisitedKeys_append_new {adj : Alist (List Int)}
    {visited : List Int} {start : Int} (hnd : (alistKeys adj).Nodup)
    (hk : start ∈ alistKeys adj) (hnv : start ∉ visited) :
    unvisitedKeys adj (visited ++ [start]) + 1 = unvisitedKeys adj visited :=
  countP_notin_append_single hnd hk hnv

/-! ### Lemmas about the adjacency builder -/

theorem alistKeys_append {β : Type} (l1 l2 : Alist β) :
    alistKeys (l1 ++ l2) = alistKeys l1 ++ alistKeys l2 :=
  List.map_append _ _ _

theorem adjList_set_self (l : Alist (List Int)) (x : Int) (nv : List Int) :
    adjList (alistSet l x nv) x = nv := by
  simp [adjList, alistGet_set_self]

theorem adjList_set_ne (l : Alist (List Int)) {x k : Int} (nv : List Int)
    (h : k ≠ x) : adjList (alistSet l x nv) k = adjList l k := by
  simp [adjList, alistGet_set_ne l nv h]

theorem adjList_ensureKey (adj : Alist (List Int)) (k x : Int) :
    adjList (ensureKey adj k) x = adjList adj x := by
  unfold ensureKey
  cases hg : alistGet adj k with
  | some l => rfl
  | none =>
    cases hx : alistGet adj x with
    | some lx => simp [adjList, alistGet_append_of_some _ hx, hx]
    | none =>
      rw [adjList, alistGet_append_of_none _ hx]
      by_cases hxk : x = k
      · subst hxk; simp [adjList, alistGet, hx]
      · simp [adjList, alistGet, hxk, hx]

theorem keys_ensureKey_self (adj : Alist (List Int)) (k : Int) :
    k ∈ alistKeys (ensureKey adj k) := by
  unfold ensureKey
  cases hg : alistGet adj k with
  | some l => exact mem_of_alistGet_some hg
  | none => simp [alistKeys_append, alistKeys]

theorem keys_ensureKey_mono {adj : Alist (List Int)} {x : Int} (k : Int)
    (h : x ∈ alistKeys adj) : x ∈ alistKeys (ensureKey adj k) := by
  unfold ensureKey
  cases alistGet adj k with
  | some l => exact h
  | none => simp [alistKeys_append, h]

theorem keys_ensureKey_cases {adj : Alist (List Int)} {x k : Int}
    (h : x ∈ alistKeys (ensureKey adj k)) : x ∈ alistKeys adj ∨ x = k := by
  unfold ensureKey at h
  cases hg : alistGet adj k with
  | some l => rw [hg] at h; exact Or.inl h
  | none =>
    rw [hg, alistKeys_append] at h
    rcases List.mem_append.mp h with h1 | h1
    · exact Or.inl h1
    · simp [alistKeys] at h1
      exact Or.inr h1

theorem keys_ensureKey_nodup {adj : Alist (List Int)} (k : Int)
    (h : (alistKeys adj).Nodup) : (alistKeys (ensureKey adj k)).Nodup := by
  unfold ensureKey
  cases hg : alistGet adj k with
  | some l => exact h
  | none =>
    rw [alistKeys_append]
    have hk : k ∉ alistKeys adj := by
      intro hc
      obtain ⟨b, hb⟩ := alistGet_some_of_mem hc
      rw [hg] at hb
      cases hb
    refine List.Nodup.append h (by simp [alistKeys]) ?_
    intro a ha hb
    have hak : a = k := by simpa [alistKeys] using hb
    subst hak
    exact hk ha

theorem adjList_appendNbr_self (adj : Alist (List Int)) (k v : Int) :
    adjList (appendNbr adj k v) k = adjList adj k ++ [v] := by
  simp [appendNbr, adjList, alistGet_set_self]

theorem adjList_appendNbr_ne (adj : Alist (List Int)) {x k : Int} (v : Int)
    (h : x ≠ k) : adjList (appendNbr adj k v) x = adjList adj x := by
  simp [appendNbr, adjList, alistGet_set_ne _ _ h]

theorem keys_appendNbr_of_mem {adj : Alist (List Int)} {k : Int} (v : Int)
    (h : k ∈ alistKeys adj) :
    alistKeys (appendNbr adj k v) = alistKeys adj :=
  alistKeys_set_of_mem _ h

theorem keys_addEdge_sup1 (adj : Alist (List Int)) (uv : Int × Int) :
    uv.1 ∈ alistKeys (addEdge adj uv) := by
  unfold addEdge
  have h1 : uv.1 ∈ alistKeys (ensureKey (ensureKey adj uv.1) uv.2) :=
    keys_ensureKey_mono _ (keys_ensureKey_self adj uv.1)
  have h2 : uv.2 ∈ alistKeys (ensureKey (ensureKey adj uv.1) uv.2) :=
    keys_ensureKey_self _ _
  rw [keys_appendNbr_of_mem _ (by rw [keys_appendNbr_of_mem _ h1]; exact h2)]
  rw [keys_appendNbr_of_mem _ h1]
  exact h1

theorem keys_addEdge_sup2 (adj : Alist (List Int)) (uv : Int × Int) :
    uv.2 ∈ alistKeys (addEdge adj uv) := by
  unfold addEdge
  have h1 : uv.1 ∈ alistKeys (ensureKey (ensureKey adj uv.1) uv.2) :=
    keys_ensureKey_mono _ (keys_ensureKey_self adj uv.1)
  have h2 : uv.2 ∈ alistKeys (ensureKey (ensureKey adj uv.1) uv.2) :=
    keys_ensureKey_self _ _
  rw [keys_appendNbr_of_mem _ (by rw [keys_appendNbr_of_mem _ h1]; exact h2)]
  rw [keys_appendNbr_of_mem _ h1]
  exact h2

theorem keys_addEdge_mono {adj : Alist (List Int)} {x : Int}
    (uv : Int × Int) (h : x ∈ alistKeys adj) :
    x ∈ alistKeys (addEdge adj uv) := by
  unfold addEdge
  have h1 : uv.1 ∈ alistKeys (ensureKey (ensureKey adj uv.1) uv.2) :=
    keys_ensureKey_mono _ (keys_ensureKey_self adj uv.1)
  have h2 : uv.2 ∈ alistKeys (ensureKey (ensureKey adj uv.1) uv.2) :=
    keys_ensureKey_self _ _
  rw [keys_appendNbr_of_mem _ (by rw [keys_appendNbr_of_mem _ h1]; exact h2)]
  rw [keys_appendNbr_of_mem _ h1]
  exact keys_ensureKey_mono _ (keys_ensureKey_mono _ h)

theorem keys_addEdge_cases {adj : Alist (List Int)} {x : Int}
    {uv : Int × Int} (h : x ∈ alistKeys (addEdge adj uv)) :
    x ∈ alistKeys adj ∨ x = uv.1 ∨ x = uv.2 := by
  unfold addEdge at h
  have h1 : uv.1 ∈ alistKeys (ensureKey (ensureKey adj uv.1) uv.2) :=
    keys_ensureKey_mono _ (keys_ensureKey_self adj uv.1)
  have h2 : uv.2 ∈ alistKeys (ensureKey (ensureKey adj uv.1) uv.2) :=
    keys_ensureKey_self _ _
  rw [keys_appendNbr_of_mem _ (by rw [keys_appendNbr_of_mem _ h1]; exact h2),
    keys_appendNbr_of_mem _ h1] at h
  rcases keys_ensureKey_cases h with h3 | h3
  · rcases keys_ensureKey_cases h3 with h4 | h4
    · exact Or.inl h4
    · exact Or.inr (Or.inl h4)
  · exact Or.inr (Or.inr h3)

theorem keys_addEdge_nodup {adj : Alist (List Int)} (uv : Int × Int)
    (h : (alistKeys adj).Nodup) : (alistKeys (addEdge adj uv)).Nodup := by
  unfold addEdge
  have h1 : uv.1 ∈ alistKeys (ensureKey (ensureKey adj uv.1) uv.2) :=
    keys_ensureKey_mono _ (keys_ensureKey_self adj uv.1)
  have h2 : uv.2 ∈ alistKeys (ensureKey (ensureKey adj uv.1) uv.2) :=
    keys_ensureKey_self _ _
  rw [keys_appendNbr_of_mem _ (by rw [keys_appendNbr_of_mem _ h1]; exact h2),
    keys_appendNbr_of_mem _ h1]
  exact keys_ensureKey_nodup _ (keys_ensureKey_nodup _ h)

theorem adjList_addEdge_eq (adj : Alist (List Int)) (uv : Int × Int)
    (x : Int) :
    adjList (addEdge adj uv) x =
      if x = uv.2 then
        (if uv.2 = uv.1 then adjList adj uv.1 ++ [uv.2]
          else adjList adj uv.2) ++ [uv.1]
      else if x = uv.1 then adjList adj uv.1 ++ [uv.2]
      else adjList adj x := by
  obtain ⟨u, v⟩ := uv
  dsimp only
  unfold addEdge
  dsimp only
  have hB : ∀ y, adjList (ensureKey (ensureKey adj u) v) y = adjList adj y := by
    intro y
    rw [adjList_ensureKey, adjList_ensureKey]
  by_cases h2 : x = v
  · subst h2
    rw [if_pos rfl, adjList_appendNbr_self]
    by_cases h1 : x = u
    · subst h1
      rw [if_pos rfl, adjList_appendNbr_self, hB]
    · rw [if_neg h1, adjList_appendNbr_ne _ _ h1, hB]
  · rw [if_neg h2, adjList_appendNbr_ne _ _ h2]
    by_cases h1 : x = u
    · subst h1
      rw [if_pos rfl, adjList_appendNbr_self, hB]
    · rw [if_neg h1, adjList_appendNbr_ne _ _ h1, hB]

theorem adjList_addEdge_mono {adj : Alist (List Int)} {x a : Int}
    (uv : Int × Int) (h : a ∈ adjList adj x) :
    a ∈ adjList (addEdge adj uv) x := by
  rw [adjList_addEdge_eq]
  by_cases h2 : x = uv.2
  · rw [if_pos h2]
    by_cases h1 : uv.2 = uv.1
    · rw [if_pos h1]
      rw [h2, h1] at h
      exact List.mem_append_left _ (List.mem_append_left _ h)
    · rw [if_neg h1]
      rw [h2] at h
      exact List.mem_append_left _ h
  · rw [if_neg h2]
    by_cases h1 : x = uv.1
    · rw [if_pos h1]
      rw [h1] at h
      exact List.mem_append_left _ h
    · rw [if_neg h1]
      exact h

theorem adjList_addEdge_cases {adj : Alist (List Int)} {x a : Int}
    {uv : Int × Int} (h : a ∈ adjList (addEdge adj uv) x) :
    a ∈ adjList adj x ∨ a = uv.1 ∨ a = uv.2 := by
  rw [adjList_addEdge_eq] at h
  by_cases h2 : x = uv.2
  · rw [if_pos h2] at h
    rcases List.mem_append.mp h with h3 | h3
    · by_cases h1 : uv.2 = uv.1
      · rw [if_pos h1] at h3
        rcases List.mem_append.mp h3 with h4 | h4
        · rw [h2, h1]
          exact Or.inl h4
        · simp at h4
          exact Or.inr (Or.inr h4)
      · rw [if_neg h1] at h3
        rw [h2]
        exact Or.inl h3
    · simp at h3
      exact Or.inr (Or.inl h3)
  · rw [if_neg h2] at h
    by_cases h1 : x = uv.1
    · rw [if_pos h1] at h
      rcases List.mem_append.mp h with h3 | h3
      · rw [h1]
        exact Or.inl h3
      · simp at h3
        exact Or.inr (Or.inr h3)
    · rw [if_neg h1] at h
      exact Or.inl h

theorem addEdge_selfloop_mem (adj : Alist (List Int)) (u : Int) :
    u ∈ adjList (addEdge adj (u, u)) u := by
  unfold addEdge
  rw [adjList_appendNbr_self]
  exact List.mem_append_right _ (List.mem_singleton_self u)

theorem addEdge_closed {adj : Alist (List Int)} (uv : Int × Int)
    (h : Closed adj) : Closed (addEdge adj uv) := by
  intro x a ha
  rcases adjList_addEdge_cases ha with h1 | h1 | h1
  · exact keys_addEdge_mono uv (h x a h1)
  · subst h1; exact keys_addEdge_sup1 adj uv
  · subst h1; exact keys_addEdge_sup2 adj uv

theorem foldl_addEdge_keys_nodup :
    ∀ (l : List (Int × Int)) (adj : Alist (List Int)),
      (alistKeys adj).Nodup → (alistKeys (l.foldl addEdge adj)).Nodup := by
  intro l
  induction l with
  | nil => intro adj h; exact h
  | cons p rest ih =>
    intro adj h
    exact ih (addEdge adj p) (keys_addEdge_nodup p h)

theorem foldl_addEdge_keys_cases :
    ∀ (l : List (Int × Int)) (adj : Alist (List Int)) (x : Int),
      x ∈ alistKeys (l.foldl addEdge adj) →
      x ∈ alistKeys adj ∨ ∃ p ∈ l, x = p.1 ∨ x = p.2 := by
  intro l
  induction l with
  | nil => intro adj x h; exact Or.inl h
  | cons p rest ih =>
    intro adj x h
    rcases ih (addEdge adj p) x h with h1 | h1
    · rcases keys_addEdge_cases h1 with h2 | h2 | h2
      · exact Or.inl h2
      · exact Or.inr ⟨p, List.mem_cons_self p rest, Or.inl h2⟩
      · exact Or.inr ⟨p, List.mem_cons_self p rest, Or.inr h2⟩
    · obtain ⟨q, hq, hor⟩ := h1
      exact Or.inr ⟨q, List.mem_cons_of_mem p hq, hor⟩

theorem foldl_addEdge_closed :
    ∀ (l : List (Int × Int)) (adj : Alist (List Int)),
      Closed adj → Closed (l.foldl addEdge adj) := by
  intro l
  induction l with
  | nil => intro adj h; exact h
  | cons p rest ih =>
    intro adj h
    exact ih (addEdge adj p) (addEdge_closed p h)

theorem foldl_addEdge_adjList_mono :
    ∀ (l : List (Int × Int)) (adj : Alist (List Int)) (x a : Int),
      a ∈ adjList adj x → a ∈ adjList (l.foldl addEdge adj) x := by
  intro l
  induction l with
  | nil => intro adj x a h; exact h
  | cons p rest ih =>
    intro adj x a h
    exact ih (addEdge adj p) x a (adjList_addEdge_mono p h)

theorem build_keys_nodup (P : List (Int × Int)) (EN : List Bool) :
    (alistKeys (build_adjacency_list P EN)).Nodup :=
  foldl_addEdge_keys_nodup _ [] (by simp [alistKeys])

theorem build_keys_endpoints {P : List (Int × Int)} {EN : List Bool}
    {x : Int} (h : x ∈ alistKeys (build_adjacency_list P EN)) :
    ∃ p ∈ enabledPairs P EN, x = p.1 ∨ x = p.2 := by
  rcases foldl_addEdge_keys_cases _ [] x h with h1 | h1
  · simp [alistKeys] at h1
  · exact h1

theorem build_closed (P : List (Int × Int)) (EN : List Bool) :
    Closed (build_adjacency_list P EN) :=
  foldl_addEdge_closed _ []
    (fun x a ha => by simp [adjList, alistGet] at ha)

theorem enabledPairs_subset {P : List (Int × Int)} {EN : List Bool} {p}
    (h : p ∈ enabledPairs P EN) : p ∈ P := by
  unfold enabledPairs at h
  obtain ⟨q, hq, hqp⟩ := List.mem_map.mp h
  exact hqp ▸ (List.of_mem_zip (List.mem_filter.mp hq).1).1

theorem selfloop_mem_enabledPairs {P : List (Int × Int)} {EN : List Bool}
    {u : Int} (h : ((u, u), true) ∈ P.zip EN) :
    (u, u) ∈ enabledPairs P EN := by
  unfold enabledPairs
  exact List.mem_map.mpr ⟨((u, u), true),
    List.mem_filter.mpr ⟨h, rfl⟩, rfl⟩

theorem selfloop_mem_build {P : List (Int × Int)} {EN : List Bool} {u : Int}
    (h : (u, u) ∈ enabledPairs P EN) :
    u ∈ adjList (build_adjacency_list P EN) u := by
  obtain ⟨l1, l2, hsplit⟩ := List.append_of_mem h
  unfold build_adjacency_list
  rw [hsplit, List.foldl_append, List.foldl_cons]
  exact foldl_addEdge_adjList_mono l2 _ u u (addEdge_selfloop_mem _ u)

/-! ### Lemmas about the neighbor loop of the rooted DFS -/

section DFSfoldLemmas

variable {rec : List Int → Alist (Option Int) → Int →
    Except PyError (List Int × Alist (Option Int))}
variable {parent : Option Int}

theorem DFSfold_sub
    (hrec : ∀ v p a out, rec v p a = .ok out → v ⊆ out.1) :
    ∀ (l : List Int) (st : List Int × Alist (Option Int)) out,
      DFSfold rec parent st l = .ok out → st.1 ⊆ out.1 := by
  intro l
  induction l with
  | nil =>
    intro st out h
    rw [DFSfold] at h
    cases h
    exact fun x hx => hx
  | cons a rest ih =>
    intro st out h
    rw [DFSfold] at h
    split at h
    · cases h
    · split at h
      · cases h
      · rename_i st1 hr
        exact fun x hx => ih st1 out h (hrec _ _ _ _ hr hx)

theorem DFSfold_elem
    (hrec_sub : ∀ v p a out, rec v p a = .ok out → v ⊆ out.1)
    (hrec_mem : ∀ v p a out, rec v p a = .ok out → a ∈ out.1) :
    ∀ (l : List Int) (st : List Int × Alist (Option Int)) out,
      DFSfold rec parent st l = .ok out → ∀ a ∈ l, a ∈ out.1 := by
  intro l
  induction l with
  | nil =>
    intro st out h a ha
    cases ha
  | cons a rest ih =>
    intro st out h b hb
    rw [DFSfold] at h
    split at h
    · cases h
    · split at h
      · cases h
      · rename_i st1 hr
        rcases List.mem_cons.mp hb with hb1 | hb1
        · subst hb1
          exact DFSfold_sub hrec_sub rest st1 out h (hrec_mem _ _ _ _ hr)
        · exact ih st1 out h b hb1

theorem DFSfold_new {K : List Int}
    (hrec_new : ∀ v p a out, rec v p a = .ok out →
      ∀ x ∈ out.1, x ∈ v ∨ x ∈ K) :
    ∀ (l : List Int) (st : List Int × Alist (Option Int)) out,
      DFSfold rec parent st l = .ok out → ∀ x ∈ out.1, x ∈ st.1 ∨ x ∈ K := by
  intro l
  induction l with
  | nil =>
    intro st out h x hx
    rw [DFSfold] at h
    cases h
    exact Or.inl hx
  | cons a rest ih =>
    intro st out h x hx
    rw [DFSfold] at h
    split at h
    · cases h
    · split at h
      · cases h
      · rename_i st1 hr
        rcases ih st1 out h x hx with h1 | h1
        · exact hrec_new _ _ _ _ hr x h1
        · exact Or.inr h1

theorem DFSfold_nodup
    (hrec_nodup : ∀ v p a out, rec v p a = .ok out → v.Nodup → out.1.Nodup) :
    ∀ (l : List Int) (st : List Int × Alist (Option Int)) out,
      DFSfold rec parent st l = .ok out → st.1.Nodup → out.1.Nodup := by
  intro l
  induction l with
  | nil =>
    intro st out h hn
    rw [DFSfold] at h
    cases h
    exact hn
  | cons a rest ih =>
    intro st out h hn
    rw [DFSfold] at h
    split at h
    · cases h
    · split at h
      · cases h
      · rename_i st1 hr
        exact ih st1 out h (hrec_nodup _ _ _ _ hr hn)

theorem DFSfold_closed {f : Int → List Int}
    (hrec_sub : ∀ v p a out, rec v p a = .ok out → v ⊆ out.1)
    (hrec_closed : ∀ v p a out, rec v p a = .ok out →
      ∀ x ∈ out.1, x ∉ v → ∀ b ∈ f x, b ∈ out.1) :
    ∀ (l : List Int) (st : List Int × Alist (Option Int)) out,
      DFSfold rec parent st l = .ok out →
      ∀ x ∈ out.1, x ∉ st.1 → ∀ b ∈ f x, b ∈ out.1 := by
  intro l
  induction l with
  | nil =>
    intro st out h x hx hnx b hb
    rw [DFSfold] at h
    cases h
    exact absurd hx hnx
  | cons a rest ih =>
    intro st out h x hx hnx b hb
    rw [DFSfold] at h
    split at h
    · cases h
    · split at h
      · cases h
      · rename_i st1 hr
        by_cases hx1 : x ∈ st1.1
        · exact DFSfold_sub hrec_sub rest st1 out h
            (hrec_closed _ _ _ _ hr x hx1 hnx b hb)
        · exact ih st1 out h x hx hx1 b hb

theorem DFSfold_notmem {u c : Int}
    (hrec_sub : ∀ v p a out, rec v p a = .ok out → v ⊆ out.1)
    (hrec_not : ∀ v p a out, c ∈ v → u ∉ v → rec v p a = .ok out →
      u ∉ out.1) :
    ∀ (l : List Int) (st : List Int × Alist (Option Int)) out,
      DFSfold rec parent st l = .ok out → c ∈ st.1 → u ∉ st.1 →
      u ∉ out.1 := by
  intro l
  induction l with
  | nil =>
    intro st out h hc hu
    rw [DFSfold] at h
    cases h
    exact hu
  | cons a rest ih =>
    intro st out h hc hu
    rw [DFSfold] at h
    split at h
    · cases h
    · split at h
      · cases h
      · rename_i st1 hr
        exact ih st1 out h (hrec_sub _ _ _ _ hr hc)
          (hrec_not _ _ _ _ hc hu hr)

theorem DFSfold_no_ok {u : Int}
    (hrec_sub : ∀ v p a out, rec v p a = .ok out → v ⊆ out.1)
    (hpar : parentNe parent u = true) :
    ∀ (l : List Int) (st : List Int × Alist (Option Int)),
      u ∈ st.1 → u ∈ l → ∀ out, DFSfold rec parent st l ≠ .ok out := by
  intro l
  induction l with
  | nil =>
    intro st hu hl out
    cases hl
  | cons a rest ih =>
    intro st hu hl out h
    rw [DFSfold] at h
    by_cases hau : a = u
    · subst hau
      rw [if_pos ⟨hu, hpar⟩] at h
      cases h
    · have hur : u ∈ rest := (List.mem_cons.mp hl).resolve_left
        (fun hc => hau hc.symm)
      split at h
      · cases h
      · split at h
        · cases h
        · rename_i st1 hr
          exact ih st1 (hrec_sub _ _ _ _ hr hu) hur out h

theorem DFSfold_ne_oof {Q : List Int → Prop}
    (hrec_ne : ∀ v p a, Q v → rec v p a ≠ .error .OutOfFuel)
    (hrec_pres : ∀ v p a out, Q v → rec v p a = .ok out → Q out.1) :
    ∀ (l : List Int) (st : List Int × Alist (Option Int)),
      Q st.1 → DFSfold rec parent st l ≠ .error .OutOfFuel := by
  intro l
  induction l with
  | nil =>
    intro st hq h
    rw [DFSfold] at h
    cases h
  | cons a rest ih =>
    intro st hq h
    rw [DFSfold] at h
    split at h
    · cases h
    · split at h
      · rename_i e hr
        cases h
        exact hrec_ne _ _ _ hq hr
      · rename_i st1 hr
        exact ih st1 (hrec_pres _ _ _ _ hq hr) h

theorem DFSfold_ne_keyerr {K : List Int}
    (hrec_ne : ∀ v p a, a ∈ K → rec v p a ≠ .error .KeyError) :
    ∀ (l : List Int) (st : List Int × Alist (Option Int)),
      (∀ a ∈ l, a ∈ K) → DFSfold rec parent st l ≠ .error .KeyError := by
  intro l
  induction l with
  | nil =>
    intro st hK h
    rw [DFSfold] at h
    cases h
  | cons a rest ih =>
    intro st hK h
    rw [DFSfold] at h
    split at h
    · cases h
    · split at h
      · rename_i e hr
        cases h
        exact hrec_ne _ _ _ (hK a (List.mem_cons_self a rest)) hr
      · rename_i st1 hr
        exact ih st1 (fun b hb => hK b (List.mem_cons_of_mem a hb)) h

theorem DFSfold_error_shape
    (hrec_shape : ∀ v p a e, rec v p a = .error e →
      e = .OutOfFuel ∨ e = .KeyError ∨ e = .GraphCycleError) :
    ∀ (l : List Int) (st : List Int × Alist (Option Int)) e,
      DFSfold rec parent st l = .error e →
      e = .OutOfFuel ∨ e = .KeyError ∨ e = .GraphCycleError := by
  intro l
  induction l with
  | nil =>
    intro st e h
    rw [DFSfold] at h
    cases h
  | cons a rest ih =>
    intro st e h
    rw [DFSfold] at h
    split at h
    · cases h
      exact Or.inr (Or.inr rfl)
    · split at h
      · rename_i e1 hr
        cases h
        exact hrec_shape _ _ _ _ hr
      · rename_i st1 hr
        exact ih st1 e h

end DFSfoldLemmas

/-! ### Lemmas about the rooted DFS -/

theorem dfs_ok_sub (adj : Alist (List Int)) :
    ∀ (fuel : Nat) (visited : List Int) (plist : Alist (Option Int))
      (parent : Option Int) (start : Int) out,
      DFS adj fuel visited plist parent start = .ok out →
      visited ⊆ out.1 := by
  intro fuel
  induction fuel with
  | zero =>
    intro visited plist parent start out h
    rw [DFS] at h
    cases h
  | succ f ih =>
    intro visited plist parent start out h
    rw [DFS] at h
    split at h
    · cases h
      exact fun x hx => hx
    · split at h
      · cases h
      · rename_i ns heq
        have hsub := DFSfold_sub (fun v p a o hr => ih v p (some start) a o hr)
          ns _ out h
        exact fun x hx => hsub (List.mem_append_left _ hx)

theorem dfs_ok_start_mem (adj : Alist (List Int)) :
    ∀ (fuel : Nat) (visited : List Int) (plist : Alist (Option Int))
      (parent : Option Int) (start : Int) out,
      DFS adj fuel visited plist parent start = .ok out →
      start ∈ out.1 := by
  intro fuel
  cases fuel with
  | zero =>
    intro visited plist parent start out h
    rw [DFS] at h
    cases h
  | succ f =>
    intro visited plist parent start out h
    rw [DFS] at h
    split at h
    · rename_i hs
      cases h
      exact hs
    · split at h
      · cases h
      · rename_i ns heq
        have hsub := DFSfold_sub
          (fun v p a o hr => dfs_ok_sub adj f v p (some start) a o hr)
          ns _ out h
        exact hsub (List.mem_append_right _ (List.mem_singleton_self start))

theorem dfs_ok_new (adj : Alist (List Int)) :
    ∀ (fuel : Nat) (visited : List Int) (plist : Alist (Option Int))
      (parent : Option Int) (start : Int) out,
      DFS adj fuel visited plist parent start = .ok out →
      ∀ x ∈ out.1, x ∈ visited ∨ x ∈ alistKeys adj := by
  intro fuel
  induction fuel with
  | zero =>
    intro visited plist parent start out h
    rw [DFS] at h
    cases h
  | succ f ih =>
    intro visited plist parent start out h x hx
    rw [DFS] at h
    split at h
    · cases h
      exact Or.inl hx
    · split at h
      · cases h
      · rename_i ns heq
        rcases DFSfold_new (fun v p a o hr => ih v p (some start) a o hr)
          ns _ out h x hx with h1 | h1
        · rcases List.mem_append.mp h1 with h2 | h2
          · exact Or.inl h2
          · have hxs : x = start := by simpa using h2
            exact Or.inr (hxs ▸ mem_of_alistGet_some heq)
        · exact Or.inr h1

theorem dfs_ok_nodup (adj : Alist (List Int)) :
    ∀ (fuel : Nat) (visited : List Int) (plist : Alist (Option Int))
      (parent : Option Int) (start : Int) out,
      DFS adj fuel visited plist parent start = .ok out →
      visited.Nodup → out.1.Nodup := by
  intro fuel
  induction fuel with
  | zero =>
    intro visited plist parent start out h
    rw [DFS] at h
    cases h
  | succ f ih =>
    intro visited plist parent start out h hn
    rw [DFS] at h
    split at h
    · cases h
      exact hn
    · rename_i hs
      split at h
      · cases h
      · rename_i ns heq
        refine DFSfold_nodup (fun v p a o hr hv => ih v p (some start) a o hr hv)
          ns _ out h ?_
        simp [List.nodup_append, hn, hs]

theorem dfs_ok_closed (adj : Alist (List Int)) :
    ∀ (fuel : Nat) (visited : List Int) (plist : Alist (Option Int))
      (parent : Option Int) (start : Int) out,
      DFS adj fuel visited plist parent start = .ok out →
      ∀ x ∈ out.1, x ∉ visited → ∀ b ∈ adjList adj x, b ∈ out.1 := by
  intro fuel
  induction fuel with
  | zero =>
    intro visited plist parent start out h
    rw [DFS] at h
    cases h
  | succ f ih =>
    intro visited plist parent start out h x hx hnx b hb
    rw [DFS] at h
    split at h
    · cases h
      exact absurd hx hnx
    · split at h
      · cases h
      · rename_i ns heq
        by_cases hxs : x = start
        · have hns : adjList adj x = ns := by
            rw [hxs, adjList, heq]
            rfl
          rw [hns] at hb
          exact DFSfold_elem
            (fun v p a o hr => dfs_ok_sub adj f v p (some start) a o hr)
            (fun v p a o hr => dfs_ok_start_mem adj f v p (some start) a o hr)
            ns _ out h b hb
        · have hnx2 : x ∉ visited ++ [start] := by
            simp [hnx, hxs]
          exact DFSfold_closed
            (fun v p a o hr => dfs_ok_sub adj f v p (some start) a o hr)
            (fun v p a o hr => ih v p (some start) a o hr)
            ns _ out h x hx hnx2 b hb

theorem dfs_ok_notmem (adj : Alist (List Int)) {u : Int}
    (hu : u ∈ adjList adj u) :
    ∀ (fuel : Nat) (visited : List Int) (plist : Alist (Option Int))
      (parent : Option Int) (start : Int) out,
      DFS adj fuel visited plist parent start = .ok out → u ∉ visited →
      (∀ w, parent = some w → w ∈ visited) → u ∉ out.1 := by
  intro fuel
  induction fuel with
  | zero =>
    intro visited plist parent start out h
    rw [DFS] at h
    cases h
  | succ f ih =>
    intro visited plist parent start out h hnu hpar
    rw [DFS] at h
    split at h
    · cases h
      exact hnu
    · rename_i hs
      split at h
      · cases h
      · rename_i ns heq
        by_cases hsu : start = u
        · rw [hsu] at heq
          have hns : u ∈ ns := by
            rw [adjList, heq] at hu
            exact hu
          have hpne : parentNe parent u = true := by
            cases parent with
            | none => rfl
            | some w =>
              have hw : w ∈ visited := hpar w rfl
              have hwu : u ≠ w := fun hc => hnu (hc ▸ hw)
              simp [parentNe, hwu]
          refine absurd h (DFSfold_no_ok
            (fun v p a o hr => dfs_ok_sub adj f v p (some start) a o hr)
            hpne ns _ ?_ hns out)
          rw [hsu]
          exact List.mem_append_right _ (List.mem_singleton_self u)
        · have hus : u ≠ start := fun hc => hsu hc.symm
          have hnu2 : u ∉ visited ++ [start] := by
            simp [hnu, hus]
          exact DFSfold_notmem
            (fun v p a o hr => dfs_ok_sub adj f v p (some start) a o hr)
            (fun v p a o hcv hunv hr => ih v p (some start) a o hr hunv
              (fun w hw => by
                injection hw with hw
                exact hw ▸ hcv))
            ns _ out h
            (List.mem_append_right _ (List.mem_singleton_self start)) hnu2

theorem dfs_ne_oof (adj : Alist (List Int))
    (hnd : (alistKeys adj).Nodup) :
    ∀ (fuel : Nat) (visited : List Int) (plist : Alist (Option Int))
      (parent : Option Int) (start : Int),
      unvisitedKeys adj visited < fuel →
      DFS adj fuel visited plist parent start ≠ .error .OutOfFuel := by
  intro fuel
  induction fuel with
  | zero =>
    intro visited plist parent start hlt
    exact absurd hlt (Nat.not_lt_zero _)
  | succ f ih =>
    intro visited plist parent start hlt h
    rw [DFS] at h
    split at h
    · cases h
    · rename_i hs
      split at h
      · cases h
      · rename_i ns heq
        have hmem : start ∈ alistKeys adj := mem_of_alistGet_some heq
        have hcount := unvisitedKeys_append_new hnd hmem hs
        refine DFSfold_ne_oof (Q := fun v => unvisitedKeys adj v < f)
          (fun v p a hq => ih v p (some start) a hq)
          (fun v p a o hq hr => lt_of_le_of_lt
            (unvisitedKeys_le_of_subset adj
              (dfs_ok_sub adj f v p (some start) a o hr)) hq)
          ns _ ?_ h
        dsimp only
        omega

theorem dfs_ne_keyerr (adj : Alist (List Int)) (hcl : Closed adj) :
    ∀ (fuel : Nat) (visited : List Int) (plist : Alist (Option Int))
      (parent : Option Int) (start : Int),
      (start ∈ alistKeys adj ∨ start ∈ visited) →
      DFS adj fuel visited plist parent start ≠ .error .KeyError := by
  intro fuel
  induction fuel with
  | zero =>
    intro visited plist parent start hst h
    rw [DFS] at h
    cases h
  | succ f ih =>
    intro visited plist parent start hst h
    rw [DFS] at h
    split at h
    · cases h
    · rename_i hs
      have hk : start ∈ alistKeys adj := hst.resolve_right hs
      split at h
      · rename_i heq
        obtain ⟨b, hb⟩ := alistGet_some_of_mem hk
        rw [heq] at hb
        cases hb
      · rename_i ns heq
        have hns : ∀ a ∈ ns, a ∈ alistKeys adj := by
          intro a ha
          refine hcl start a ?_
          rw [adjList, heq]
          exact ha
        exact DFSfold_ne_keyerr
          (fun v p a haK => ih v p (some start) a (Or.inl haK))
          ns _ hns h

theorem dfs_error_shape (adj : Alist (List Int)) :
    ∀ (fuel : Nat) (visited : List Int) (plist : Alist (Option Int))
      (parent : Option Int) (start : Int) (e : PyError),
      DFS adj fuel visited plist parent start = .error e →
      e = .OutOfFuel ∨ e = .KeyError ∨ e = .GraphCycleError := by
  intro fuel
  induction fuel with
  | zero =>
    intro visited plist parent start e h
    rw [DFS] at h
    cases h
    exact Or.inl rfl
  | succ f ih =>
    intro visited plist parent start e h
    rw [DFS] at h
    split at h
    · cases h
    · split at h
      · cases h
        exact Or.inr (Or.inl rfl)
      · rename_i ns heq
        exact DFSfold_error_shape
          (fun v p a e1 hr => ih v p (some start) a e1 hr) ns _ e h

/-! ### Lemmas about the second (explicit-color) cycle check -/

theorem dfs2loop_countW_mono
    {rec : Alist Color → Alist (Option Int) → Int →
      Except PyError (Bool × Alist Color × Alist (Option Int))}
    (hrec : ∀ c p v b c2 p2, rec c p v = .ok (b, c2, p2) →
      countW c2 ≤ countW c) (u : Int) :
    ∀ (l : List Int) (cs : Alist Color) (ps : Alist (Option Int)) b cs2 ps2,
      dfs2loop rec u cs ps l = .ok (b, cs2, ps2) → countW cs2 ≤ countW cs := by
  intro l
  induction l with
  | nil =>
    intro cs ps b cs2 ps2 h
    rw [dfs2loop] at h
    cases h
    exact countW_set_le cs u (by simp)
  | cons v rest ih =>
    intro cs ps b cs2 ps2 h
    rw [dfs2loop] at h
    split at h
    · cases h
    · rename_i c heqc
      split at h
      · split at h
        · cases h
        · rename_i cs1 ps1 hr
          cases h
          exact hrec _ _ _ _ _ _ hr
        · rename_i cs1 ps1 hr
          exact le_trans (ih _ _ _ _ _ h) (hrec _ _ _ _ _ _ hr)
      · split at h
        · split at h
          · cases h
          · rename_i pu hpu
            split at h
            · cases h
              exact le_refl _
            · exact ih _ _ _ _ _ h
        · exact ih _ _ _ _ _ h

theorem dfs2_countW_mono (graph : Alist (List Int)) :
    ∀ (fuel : Nat) (cs : Alist Color) (ps : Alist (Option Int)) (u : Int)
      b cs2 ps2,
      dfs2 graph fuel cs ps u = .ok (b, cs2, ps2) → countW cs2 ≤ countW cs := by
  intro fuel
  induction fuel with
  | zero =>
    intro cs ps u b cs2 ps2 h
    rw [dfs2] at h
    cases h
  | succ f ih =>
    intro cs ps u b cs2 ps2 h
    rw [dfs2] at h
    split at h
    · cases h
    · rename_i vs heq
      exact le_trans
        (dfs2loop_countW_mono (fun c p v b1 c2 p2 hr => ih c p v b1 c2 p2 hr)
          u vs _ ps b cs2 ps2 h)
        (countW_set_le cs u (by simp))

theorem dfs2loop_ne_oof {f : Nat}
    {rec : Alist Color → Alist (Option Int) → Int →
      Except PyError (Bool × Alist Color × Alist (Option Int))}
    (hrec_ne : ∀ c p v, alistGet c v = some Color.W → countW c < f →
      rec c p v ≠ .error .OutOfFuel)
    (hrec_mono : ∀ c p v b c2 p2, rec c p v = .ok (b, c2, p2) →
      countW c2 ≤ countW c) (u : Int) :
    ∀ (l : List Int) (cs : Alist Color) (ps : Alist (Option Int)),
      countW cs < f → dfs2loop rec u cs ps l ≠ .error .OutOfFuel := by
  intro l
  induction l with
  | nil =>
    intro cs ps hlt h
    rw [dfs2loop] at h
    cases h
  | cons v rest ih =>
    intro cs ps hlt h
    rw [dfs2loop] at h
    split at h
    · cases h
    · rename_i c heqc
      split at h
      · rename_i hcW
        split at h
        · rename_i e hr
          cases h
          exact hrec_ne _ _ _ (hcW ▸ heqc) hlt hr
        · cases h
        · rename_i cs1 ps1 hr
          exact ih _ _ (lt_of_le_of_lt (hrec_mono _ _ _ _ _ _ hr) hlt) h
      · split at h
        · split at h
          · cases h
          · rename_i pu hpu
            split at h
            · cases h
            · exact ih _ _ hlt h
        · exact ih _ _ hlt h

theorem dfs2_ne_oof (graph : Alist (List Int)) :
    ∀ (fuel : Nat) (cs : Alist Color) (ps : Alist (Option Int)) (u : Int),
      alistGet cs u = some Color.W → countW cs < fuel →
      dfs2 graph fuel cs ps u ≠ .error .OutOfFuel := by
  intro fuel
  induction fuel with
  | zero =>
    intro cs ps u hW hlt
    exact absurd hlt (Nat.not_lt_zero _)
  | succ f ih =>
    intro cs ps u hW hlt h
    rw [dfs2] at h
    split at h
    · cases h
    · rename_i vs heq
      have hcount := countW_set_G hW
      refine dfs2loop_ne_oof (f := f)
        (fun c p v hw hl => ih c p v hw hl)
        (fun c p v b c2 p2 hr => dfs2_countW_mono graph f c p v b c2 p2 hr)
        u vs _ ps ?_ h
      omega

theorem cycleTop_ne_oof (graph : Alist (List Int)) (fuel : Nat) :
    ∀ (l : List Int) (cs : Alist Color) (ps : Alist (Option Int)),
      countW cs < fuel → cycleTop graph fuel cs ps l ≠ .error .OutOfFuel := by
  intro l
  induction l with
  | nil =>
    intro cs ps hlt h
    rw [cycleTop] at h
    cases h
  | cons v rest ih =>
    intro cs ps hlt h
    rw [cycleTop] at h
    split at h
    · cases h
    · rename_i c heqc
      split at h
      · rename_i hcW
        split at h
        · rename_i e hr
          cases h
          exact dfs2_ne_oof graph fuel cs ps v (hcW ▸ heqc) hlt hr
        · cases h
        · rename_i cs2 ps2 hr
          exact ih cs2 ps2
            (lt_of_le_of_lt (dfs2_countW_mono graph fuel cs ps v _ _ _ hr) hlt) h
      · exact ih cs ps hlt h

theorem buildDirectedLoop_keys (EN : List Bool) :
    ∀ (l : List (Int × (Int × Int))) (g g2 : Alist (List Int)),
      buildDirectedLoop EN g l = .ok g2 → alistKeys g2 = alistKeys g := by
  intro l
  induction l with
  | nil =>
    intro g g2 h
    rw [buildDirectedLoop] at h
    cases h
    rfl
  | cons e rest ih =>
    intro g g2 h
    rw [buildDirectedLoop] at h
    split at h
    · cases h
    · split at h
      · split at h
        · cases h
        · rename_i ll heql
          rw [ih _ _ h]
          exact alistKeys_set_of_mem _ (mem_of_alistGet_some heql)
      · exact ih _ _ h

theorem buildDirectedLoop_ne_oof (EN : List Bool) :
    ∀ (l : List (Int × (Int × Int))) (g : Alist (List Int)),
      buildDirectedLoop EN g l ≠ .error .OutOfFuel := by
  intro l
  induction l with
  | nil =>
    intro g h
    rw [buildDirectedLoop] at h
    cases h
  | cons e rest ih =>
    intro g h
    rw [buildDirectedLoop] at h
    split at h
    · cases h
    · split at h
      · split at h
        · cases h
        · exact ih _ h
      · exact ih _ h

theorem alistKeys_map_const {β : Type} (l : List Int) (x : β) :
    alistKeys (l.map (fun v => (v, x))) = l := by
  simp [alistKeys, List.map_map]
  exact List.map_id l

theorem countW_allW (l : List Int) :
    countW (l.map (fun v => (v, Color.W))) = l.length := by
  simp [countW, List.countP_map]

theorem cycleCheck_ne_oof (V E : List Int) (P : List (Int × Int))
    (EN : List Bool) : cycleCheck V E P EN ≠ .error .OutOfFuel := by
  intro h
  rw [cycleCheck] at h
  split at h
  · rename_i e hr
    cases h
    exact buildDirectedLoop_ne_oof EN _ _ hr
  · rename_i graph hr
    have hkeys : alistKeys graph = V := by
      rw [buildDirectedLoop_keys EN _ _ _ hr, alistKeys_map_const]
    refine cycleTop_ne_oof graph (V.length + 1) _ _ _ ?_ h
    rw [countW_allW, hkeys]
    omega

/-! ### Reachability corollaries of the DFS lemmas -/

theorem dfs_ok_reach_mem (adj : Alist (List Int)) {s u : Int}
    (hreach : Reachable adj s u) (fuel : Nat) (plist : Alist (Option Int))
    (parent : Option Int) (out : List Int × Alist (Option Int))
    (h : DFS adj fuel [] plist parent s = .ok out) : u ∈ out.1 := by
  induction hreach with
  | refl => exact dfs_ok_start_mem adj fuel [] plist parent s out h
  | tail hab hbc ih =>
    exact dfs_ok_closed adj fuel [] plist parent s out h _ ih (by simp) _ hbc

theorem reach_source_key (adj : Alist (List Int)) {s u : Int}
    (h : Reachable adj s u) (hu : u ∈ adjList adj u) :
    s ∈ alistKeys adj := by
  rcases Relation.ReflTransGen.cases_head h with heq | ⟨c, hc, _⟩
  · subst heq
    rw [adjList] at hu
    cases hg : alistGet adj s with
    | none => rw [hg] at hu; cases hu
    | some l => exact mem_of_alistGet_some hg
  · rw [adjList] at hc
    cases hg : alistGet adj s with
    | none => rw [hg] at hc; cases hc
    | some l => exact mem_of_alistGet_some hg

theorem unvisitedKeys_nil (adj : Alist (List Int)) :
    unvisitedKeys adj [] = (alistKeys adj).length := by
  simp [unvisitedKeys]

theorem construct_structural_pass (V E : List Int) (P : List (Int × Int))
    (EN : List Bool) (s : Int) (hs : structuralOk V E P EN s) :
    construct V E P EN s = traversalPhase V E P EN s := by
  obtain ⟨h1, h2, h3, h4, h5, h6, h7⟩ := hs
  rw [construct, if_neg (not_not_intro h1), if_neg (not_not_intro h2),
    if_neg (not_not_intro h3), if_neg (not_not_intro h4),
    if_neg (not_not_intro h5), if_neg (not_not_intro h6),
    if_neg (not_not_intro h7)]

theorem build_keys_sub_vertices {V : List Int} {P : List (Int × Int)}
    (EN : List Bool)
    (hpV : ∀ p ∈ P, p.1 ∈ V ∧ p.2 ∈ V) :
    ∀ x ∈ alistKeys (build_adjacency_list P EN), x ∈ V := by
  intro x hx
  obtain ⟨p, hp, hor⟩ := build_keys_endpoints hx
  have hpv := hpV p (enabledPairs_subset hp)
  rcases hor with h | h
  · exact h ▸ hpv.1
  · exact h ▸ hpv.2

theorem construct_cases (V E : List Int) (P : List (Int × Int))
    (EN : List Bool) (s : Int) :
    (structuralOk V E P EN s ∧
      construct V E P EN s = traversalPhase V E P EN s) ∨
    construct V E P EN s = .error .IDNotUniqueError ∨
    construct V E P EN s = .error .InputLengthDoesNotMatchError ∨
    construct V E P EN s = .error .IDNotFoundError ∨
    construct V E P EN s = .error .EdgePairNotUniqueError := by
  by_cases hs : structuralOk V E P EN s
  · exact Or.inl ⟨hs, construct_structural_pass V E P EN s hs⟩
  by_cases h1 : ¬ V.Nodup
  · rw [construct, if_pos h1]
    exact Or.inr (Or.inl rfl)
  by_cases h2 : ¬ E.Nodup
  · rw [construct, if_neg h1, if_pos h2]
    exact Or.inr (Or.inl rfl)
  by_cases h3 : P.length ≠ E.length
  · rw [construct, if_neg h1, if_neg h2, if_pos h3]
    exact Or.inr (Or.inr (Or.inl rfl))
  by_cases h4 : ¬ ∀ p ∈ P, p.1 ∈ V ∧ p.2 ∈ V
  · rw [construct, if_neg h1, if_neg h2, if_neg h3, if_pos h4]
    exact Or.inr (Or.inr (Or.inr (Or.inl rfl)))
  by_cases h5 : EN.length ≠ E.length
  · rw [construct, if_neg h1, if_neg h2, if_neg h3, if_neg h4, if_pos h5]
    exact Or.inr (Or.inr (Or.inl rfl))
  by_cases h6 : s ∉ V
  · rw [construct, if_neg h1, if_neg h2, if_neg h3, if_neg h4, if_neg h5,
      if_pos h6]
    exact Or.inr (Or.inr (Or.inr (Or.inl rfl)))
  by_cases h7 : ¬ (sort_tuple_list P).Nodup
  · rw [construct, if_neg h1, if_neg h2, if_neg h3, if_neg h4, if_neg h5,
      if_neg h6, if_pos h7]
    exact Or.inr (Or.inr (Or.inr (Or.inr rfl)))
  exact absurd ⟨not_not.mp h1, not_not.mp h2, not_not.mp h3,
    not_not.mp h4, not_not.mp h5, not_not.mp h6, not_not.mp h7⟩ hs

/-- C1.  The claim says every input satisfying the stated validity
invariants constructs successfully.  The code disagrees: the single-vertex
graph (one vertex `0`, no edges, source `0`) satisfies every invariant —
its enabled sub-graph is the trivial spanning tree — yet `__init__` raises
`KeyError`, because `DFS` looks up `adjacency_list[0]` and the adjacency
dict built from zero enabled edges has no entry for the source. -/
theorem C1_valid_single_vertex_raises_keyerror :
    construct [0] [] [] [] 0 = .error .KeyError := by rfl

/-- C1 (supporting evidence for the same defect family).  A two-vertex
spanning tree whose only edge has id `7` also satisfies every invariant,
yet `__init__` raises `IndexError`: the second cycle check indexes
`edge_enabled[edge_id - 1]`, i.e. `edge_enabled[6]` on a one-element
list. -/
theorem C1_aux_valid_tree_edge_id_7_raises_indexerror :
    construct [0, 1] [7] [(0, 1)] [true] 0 = .error .IndexError := by rfl

/-- C2.  The claim says `find_alternative_edges` raises
`EdgeAlreadyDisabledError` on a disabled edge id and `IDNotFoundError` on
an unknown id.  The code's method body is only `pass`: on the validated
graph with vertices `[0,1,2]`, edges `1:(0,1)` enabled, `2:(1,2)` enabled,
`3:(0,2)` disabled, construction succeeds and both the disabled-edge call
(`3`) and the unknown-id call (`99`) return `None` and raise nothing. -/
theorem C2_find_alternative_edges_is_stub :
    construct [0, 1, 2] [1, 2, 3] [(0, 1), (1, 2), (0, 2)]
        [true, true, false] 0 = .ok ⟨⟩ ∧
    GraphProcessor.find_alternative_edges ⟨⟩ 3 = none ∧
    GraphProcessor.find_alternative_edges ⟨⟩ 99 = none :=
  ⟨rfl, rfl, rfl⟩

/-- C3.  On the spec's literal graph (vertices `{0,2,4,6,10}`, edges
`1:(0,2)`, `3:(0,4)`, `5:(0,6)`, `9:(2,10)` enabled and `7:(2,4)`,
`8:(4,6)` disabled, source `0`) the claim says construction succeeds and
`find_alternative_edges` answers `[7]`, `[7,8]`, `[8]`, `[]`.  In the code
construction already fails: the second cycle check evaluates
`edge_enabled[9 - 1]` on the six-element flag list, an `IndexError`. -/
theorem C3_literal_graph_construction_raises_indexerror :
    construct [0, 2, 4, 6, 10] [1, 3, 5, 9, 7, 8]
      [(0, 2), (0, 4), (0, 6), (2, 10), (2, 4), (4, 6)]
      [true, true, true, true, false, false] 0 = .error .IndexError := by rfl

/-- C4.  On the linear chain (vertices `{0,1,2,3}`, edges `1:(0,1)`,
`2:(1,2)`, `3:(2,3)` all enabled, source `0`) construction succeeds, but
`find_downstream_vertices` is an empty stub: both the call with edge `1`
(claimed `{1,2,3}`) and with edge `3` (claimed `{3}`) return `None`. -/
theorem C4_chain_find_downstream_vertices_is_stub :
    construct [0, 1, 2, 3] [1, 2, 3] [(0, 1), (1, 2), (2, 3)]
        [true, true, true] 0 = .ok ⟨⟩ ∧
    GraphProcessor.find_downstream_vertices ⟨⟩ 1 = none ∧
    GraphProcessor.find_downstream_vertices ⟨⟩ 3 = none :=
  ⟨rfl, rfl, rfl⟩

/-- C5.  The claim (and the spec's fixed contract, and the docstring's
listed order 6 before 7) says a structurally valid input whose enabled
sub-graph misses a vertex raises `GraphNotFullyConnectedError` even when a
cycle is reachable.  The code disagrees: on vertices `[0,1,2,3]` with
enabled edges `(0,1)`, `(1,2)`, `(2,0)` (a reachable cycle, vertex `3`
unreached) the `DFS` call raises `GraphCycleError` before the connectivity
comparison ever runs. -/
theorem C5_cycle_reported_before_connectivity :
    construct [0, 1, 2, 3] [1, 2, 3] [(0, 1), (1, 2), (2, 0)]
      [true, true, true] 0 = .error .GraphCycleError := by rfl

/-- C6.  The constructor runs its structural checks in the fixed source
order — duplicate vertex ids, duplicate edge ids, endpoint-pair list
length, endpoint validity, enabled-list length, source validity, unordered
endpoint-pair uniqueness — and raises the corresponding error at the first
violated check; in particular a repeated vertex id yields
`IDNotUniqueError` unconditionally, before any traversal. -/
theorem C6_structural_check_order (V E : List Int) (P : List (Int × Int))
    (EN : List Bool) (s : Int) :
    (¬ V.Nodup → construct V E P EN s = .error .IDNotUniqueError) ∧
    (V.Nodup → ¬ E.Nodup → construct V E P EN s = .error .IDNotUniqueError) ∧
    (V.Nodup → E.Nodup → P.length ≠ E.length →
      construct V E P EN s = .error .InputLengthDoesNotMatchError) ∧
    (V.Nodup → E.Nodup → P.length = E.length →
      ¬ (∀ p ∈ P, p.1 ∈ V ∧ p.2 ∈ V) →
      construct V E P EN s = .error .IDNotFoundError) ∧
    (V.Nodup → E.Nodup → P.length = E.length →
      (∀ p ∈ P, p.1 ∈ V ∧ p.2 ∈ V) → EN.length ≠ E.length →
      construct V E P EN s = .error .InputLengthDoesNotMatchError) ∧
    (V.Nodup → E.Nodup → P.length = E.length →
      (∀ p ∈ P, p.1 ∈ V ∧ p.2 ∈ V) → EN.length = E.length → s ∉ V →
      construct V E P EN s = .error .IDNotFoundError) ∧
    (V.Nodup → E.Nodup → P.length = E.length →
      (∀ p ∈ P, p.1 ∈ V ∧ p.2 ∈ V) → EN.length = E.length → s ∈ V →
      ¬ (sort_tuple_list P).Nodup →
      construct V E P EN s = .error .EdgePairNotUniqueError) := by
  refine ⟨fun h1 => ?_, fun h1 h2 => ?_, fun h1 h2 h3 => ?_,
    fun h1 h2 h3 h4 => ?_, fun h1 h2 h3 h4 h5 => ?_,
    fun h1 h2 h3 h4 h5 h6 => ?_, fun h1 h2 h3 h4 h5 h6 h7 => ?_⟩ <;>
    simp [construct, h1] <;> simp_all <;> exact h4

/-- C6 witness: a concrete input with a repeated vertex id is rejected with
`IDNotUniqueError`. -/
theorem C6_structural_check_order_witness :
    construct [0, 0] [] [] [] 0 = .error .IDNotUniqueError :=
  (C6_structural_check_order [0, 0] [] [] [] 0).1 (by decide)

/-- C7 counterexample.  The claim says an input with an enabled self-loop
`(u, u)` raises `GraphNotFullyConnectedError` when `u` is not reachable
from the source through enabled edges.  On vertices `[0, 1]` with the
single enabled self-loop edge `1:(1, 1)` and source `0`, vertex `1` is not
reachable, yet construction raises `KeyError` (the source has no enabled
incident edge, so `DFS` looks up a missing adjacency key) — not
`GraphNotFullyConnectedError`. -/
theorem C7_selfloop_counterexample :
    construct [0, 1] [1] [(1, 1)] [true] 0 = .error .KeyError ∧
    PyError.KeyError ≠ PyError.GraphNotFullyConnectedError :=
  ⟨rfl, by decide⟩

/-- C7 (amended).  For every construction input that passes the structural
checks and contains an enabled self-loop `(u, u)`: construction never
succeeds; it raises `GraphCycleError` whenever `u` is reachable from the
source through enabled edges; and when `u` is not reachable it fails with
`GraphNotFullyConnectedError`, or `GraphCycleError` (when the region
reachable from the source contains a cycle of its own), or `KeyError`
(when the source has no enabled incident edge). -/
theorem C7_amended_selfloop (V E : List Int) (P : List (Int × Int))
    (EN : List Bool) (s u : Int) (hstruct : structuralOk V E P EN s)
    (hloop : ((u, u), true) ∈ P.zip EN) :
    (∀ g, construct V E P EN s ≠ .ok g) ∧
    (Reachable (build_adjacency_list P EN) s u →
      construct V E P EN s = .error .GraphCycleError) ∧
    (¬ Reachable (build_adjacency_list P EN) s u →
      construct V E P EN s = .error .GraphNotFullyConnectedError ∨
      construct V E P EN s = .error .GraphCycleError ∨
      construct V E P EN s = .error .KeyError) := by
  have hctp := construct_structural_pass V E P EN s hstruct
  have hsl : (u, u) ∈ enabledPairs P EN := selfloop_mem_enabledPairs hloop
  have hu : u ∈ adjList (build_adjacency_list P EN) u := selfloop_mem_build hsl
  have huV : u ∈ V := (hstruct.2.2.2.1 (u, u) (enabledPairs_subset hsl)).1
  have hkeysV := build_keys_sub_vertices EN hstruct.2.2.2.1
  have hkeyslen : (alistKeys (build_adjacency_list P EN)).length ≤ V.length :=
    (List.subperm_of_subset (build_keys_nodup P EN) hkeysV).length_le
  cases hdfs : DFS (build_adjacency_list P EN) (V.length + 1) [] [] none s with
  | error e =>
    have hnoof : e ≠ .OutOfFuel := by
      intro hc
      subst hc
      exact dfs_ne_oof _ (build_keys_nodup P EN) _ [] [] none s
        (by rw [unvisitedKeys_nil]; omega) hdfs
    have htp : traversalPhase V E P EN s = .error e := by
      simp [traversalPhase, hdfs]
    have hshape := dfs_error_shape _ _ [] [] none s e hdfs
    refine ⟨?_, ?_, ?_⟩
    · intro g hg
      rw [hctp, htp] at hg
      cases hg
    · intro hreach
      have hskey := reach_source_key _ hreach hu
      have hnke : e ≠ .KeyError := by
        intro hc
        subst hc
        exact dfs_ne_keyerr _ (build_closed P EN) _ [] [] none s
          (Or.inl hskey) hdfs
      have he : e = .GraphCycleError := by
        rcases hshape with h | h | h
        · exact absurd h hnoof
        · exact absurd h hnke
        · exact h
      rw [hctp, htp, he]
    · intro _
      rcases hshape with h | h | h
      · exact absurd h hnoof
      · exact Or.inr (Or.inr (by rw [hctp, htp, h]))
      · exact Or.inr (Or.inl (by rw [hctp, htp, h]))
  | ok out =>
    obtain ⟨vis, pl⟩ := out
    have hnm : u ∉ vis := dfs_ok_notmem _ hu _ [] [] none s (vis, pl) hdfs
      (by simp) (fun w hw => by cases hw)
    have hvisV : ∀ x ∈ vis, x ∈ V := fun x hx =>
      hkeysV x ((dfs_ok_new _ _ [] [] none s (vis, pl) hdfs x hx).resolve_left
        (by simp))
    have hnd : vis.Nodup :=
      dfs_ok_nodup _ _ [] [] none s (vis, pl) hdfs List.nodup_nil
    have hsubE : vis ⊆ V.erase u := by
      intro x hx
      have hxu : x ≠ u := fun hc => hnm (hc ▸ hx)
      exact (List.mem_erase_of_ne hxu).mpr (hvisV x hx)
    have hlt : vis.length < V.length := by
      have ha := (List.subperm_of_subset hnd hsubE).length_le
      have hb : (V.erase u).length = V.length - 1 :=
        List.length_erase_of_mem huV
      have hc : 0 < V.length := List.length_pos_of_mem huV
      omega
    have htp : traversalPhase V E P EN s =
        .error .GraphNotFullyConnectedError := by
      have hne : vis.length ≠ V.length := Nat.ne_of_lt hlt
      simp [traversalPhase, hdfs, hne]
    refine ⟨?_, ?_, ?_⟩
    · intro g hg
      rw [hctp, htp] at hg
      cases hg
    · intro hreach
      exact absurd (dfs_ok_reach_mem _ hreach _ [] none (vis, pl) hdfs) hnm
    · intro _
      exact Or.inl (by rw [hctp, htp])

/-- C7 witness: on the single-vertex graph with the enabled self-loop
`1:(0, 0)` and source `0`, construction does not succeed. -/
theorem C7_amended_selfloop_witness :
    construct [0] [1] [((0 : Int), (0 : Int))] [true] 0 ≠ .ok ⟨⟩ :=
  (C7_amended_selfloop [0] [1] [(0, 0)] [true] 0 0 (by decide) (by decide)).1 ⟨⟩

/-- C8.  Construction terminates on every finite input: the fuel bound
`vertex_ids.length + 1` given to both depth-first traversals is adequate,
so the embedding's `OutOfFuel` marker — the only way the Python program's
unbounded recursion could fail to terminate — is unreachable for every
input, cyclic or not. -/
theorem C8_construction_never_out_of_fuel (V E : List Int)
    (P : List (Int × Int)) (EN : List Bool) (s : Int) :
    construct V E P EN s ≠ .error .OutOfFuel := by
  intro h
  rcases construct_cases V E P EN s with ⟨hs, hc⟩ | hc | hc | hc | hc
  · rw [hc] at h
    have hkeysV := build_keys_sub_vertices EN hs.2.2.2.1
    have hkeyslen : (alistKeys (build_adjacency_list P EN)).length ≤
        V.length :=
      (List.subperm_of_subset (build_keys_nodup P EN) hkeysV).length_le
    rw [traversalPhase] at h
    split at h
    · rename_i e hdfs
      cases h
      exact dfs_ne_oof _ (build_keys_nodup P EN) _ [] [] none s
        (by rw [unvisitedKeys_nil]; omega) hdfs
    · split at h
      · cases h
      · split at h
        · rename_i e hcc
          cases h
          exact cycleCheck_ne_oof V E P EN hcc
        · cases h
        · cases h
  · rw [hc] at h
    cases h
  · rw [hc] at h
    cases h
  · rw [hc] at h
    cases h
  · rw [hc] at h
    cases h

/-- C9.  Both query methods of `GraphProcessor` are empty stubs: for every
instance and every integer argument, `find_downstream_vertices` and
`find_alternative_edges` return `None` and raise nothing. -/
theorem C9_query_methods_are_stubs (g : GraphProcessor) (x : Int) :
    g.find_downstream_vertices x = none ∧ g.find_alternative_edges x = none :=
  ⟨rfl, rfl⟩

/-- C10.  Evaluating the module top level raises `NameError`: the statement
`graph_processor = GraphProcessor(vertex_ids=..., ...)` on line 283 refers
to `vertex_ids`, `edge_ids`, `edge_vertex_id_pairs`, `edge_enabled`,
`source_vertex_id`, none of which is a bound module name (they occur only
inside comments), so a plain import never completes. -/
theorem C10_module_top_level_raises_nameerror :
    evalModuleTopLevel = .error .NameError := by rfl

end GraphProcessing
